import Mathlib

/-!
Verification of the PSI (Private Set Intersection) protocol core of the
`psi_project` repository: a shallow embedding in Lean 4 of `src/utils.ts`,
`src/psi.ts`, `src/stats.ts`, the oblivious relay server and the clinic
`/run` handlers, together with proofs of the specified properties.

Modelling conventions:
* TypeScript `bigint` values occurring here are nonnegative (hash digests,
  modular-exponentiation results, byte parses), so they are embedded as `Nat`.
* A JavaScript `Map` is embedded as an association list `List (α × β)` in
  insertion order; `Map.set` is `mapSet` (update in place when the key is
  present, append otherwise), `Map.get`/`Map.has` are `alookup`/its
  `isSome`, and `for..of` iteration is a fold over the list.  The decimal
  string `v.toString()` used as an index key in `intersect` is an injective
  encoding of the nonnegative bigint `v`, so index keys are embedded as the
  `Nat` values themselves.
* SHA-256 (`crypto.createHash("sha256")`) is an external primitive that
  deterministically produces a 32-byte digest; the embedding takes the
  digest (a `Nat < 2^256`), respectively the identifier-to-exponent map
  `hash : String → Nat`, as an explicit argument.
* `crypto.randomBytes(32)` produces 32 uniform random bytes; the embedding
  of `randomSecret` takes the parsed 256-bit value as an argument.
* JavaScript floating-point numbers are idealized as rationals extended
  with the special values `NaN` and `Infinity` (`JSNum`), which is exact
  for the only special case exercised here, `0 / 0 = NaN`.
-/

namespace Psi

/-- The prime modulus from `src/utils.ts` (`export const P = BigInt("0xFFFF...")`,
the 768-bit First Oakley Group prime of RFC 2409; the source comment calls it
a 2048-bit MODP group, but the constant has 192 hex digits, i.e. 768 bits). -/
def P : Nat :=
  0xFFFFFFFFFFFFFFFFC90FDAA22168C234C4C6628B80DC1CD129024E088A67CC74020BBEA63B139B22514A08798E3404DDEF9519B3CD3A431B302B0A6DF25F14374FE1356D6D51C245E485B576625E7EC6F44C42E9A63A3620FFFFFFFFFFFFFFFF

/-- The generator from `src/utils.ts` (`export const G = BigInt(2)`). -/
def G : Nat := 2

/-- Embedding of `modPow(base, exp)` from `src/utils.ts`, which delegates to
`bigintCrypto.modPow(base, exp, P)`: for nonnegative arguments this is
`base ^ exp mod P`. -/
def modPow (base exp : Nat) : Nat := base ^ exp % P

/-- Embedding of `hashToBigInt` from `src/utils.ts`: SHA-256 is an external
primitive producing a 256-bit digest (64 hex characters parsed by
`BigInt("0x" + h)`); the embedding takes that digest as input and performs
the code's reduction `% (P - 1)`. -/
def hashToBigInt (digest : Nat) : Nat := digest % (P - 1)

/-- Embedding of `randomSecret` from `src/utils.ts` (mod-and-shift variant):
`crypto.randomBytes(32)` yields a 256-bit value `r`; the function returns
`(r % (P - 2)) + 2`.  The embedding takes `r` as input. -/
def randomSecret (r : Nat) : Nat := r % (P - 2) + 2

/-- JavaScript `Map.set m k v`: if `k` is already a key, its value is updated
in place (the entry keeps its original position); otherwise `(k, v)` is
appended in insertion order. -/
def mapSet {α β : Type} [DecidableEq α] (m : List (α × β)) (k : α) (v : β) :
    List (α × β) :=
  if k ∈ m.map Prod.fst then
    m.map (fun p => if p.1 = k then (k, v) else p)
  else
    m ++ [(k, v)]

/-- Association-list lookup (JavaScript `Map.get` composed with `Map.has`):
returns the value of the first entry whose key is `k`. -/
def alookup {α β : Type} [DecidableEq α] (k : α) : List (α × β) → Option β
  | [] => none
  | p :: ps => if p.1 = k then some p.2 else alookup k ps

/-- Embedding of `computeBlinded(ids, secret)` from `src/psi.ts`: for each id,
`v = modPow(G, hashToBigInt(id) * secret)` is inserted into a fresh `Map`.
The identifier-to-exponent map (`hashToBigInt ∘ SHA-256`) is taken as the
explicit argument `hash`. -/
def computeBlinded (ids : List String) (secret : Nat) (hash : String → Nat) :
    List (String × Nat) :=
  ids.foldl (fun out id => mapSet out id (modPow G (hash id * secret))) []

/-- Embedding of `reExponentiate(map, secret)` from `src/psi.ts`: each entry
`(id, v)` of the input map is inserted into a fresh `Map` as
`(id, modPow v secret)`. -/
def reExponentiate (m : List (String × Nat)) (secret : Nat) :
    List (String × Nat) :=
  m.foldl (fun out p => mapSet out p.1 (modPow p.2 secret)) []

/-- The inverted index built by `intersect` in `src/psi.ts`:
`for (const [id, v] of a) index.set(v.toString(), id)`.  Decimal strings of
nonnegative bigints are in bijection with the values, so keys are the
values themselves. -/
def buildIndex (a : List (String × Nat)) : List (Nat × String) :=
  a.foldl (fun ix p => mapSet ix p.2 p.1) []

/-- Embedding of `intersect(a, b)` from `src/psi.ts`: build the inverted
index from `a`, then scan `b` in order and push `index.get(k)` whenever
`index.has(k)`. -/
def intersect (a b : List (String × Nat)) : List String :=
  let index := buildIndex a
  b.foldl
    (fun result p =>
      match alookup p.2 index with
      | some id => result ++ [id]
      | none => result)
    []

/-- Idealized JavaScript `number`: a rational, or one of the special values
`NaN` / `Infinity` produced by division by zero.  The sign of the infinity is
not tracked: it is never produced on the reachable paths modelled here. -/
inductive JSNum where
  | nan : JSNum
  | inf : JSNum
  | val : ℚ → JSNum
deriving DecidableEq

/-- JavaScript `values.reduce((a, b) => a + b, 0)`. -/
def jsSum (values : List ℚ) : ℚ := values.foldl (· + ·) 0

/-- JavaScript division on idealized numbers: `0 / 0` is `NaN`, `a / 0` with
`a ≠ 0` is an infinity, otherwise the exact quotient. -/
def jsDiv (a b : ℚ) : JSNum :=
  if b = 0 then (if a = 0 then JSNum.nan else JSNum.inf) else JSNum.val (a / b)

/-- Embedding of `average` from `src/stats.ts`:
`values.reduce((a, b) => a + b, 0) / values.length`. -/
def average (values : List ℚ) : JSNum :=
  jsDiv (jsSum values) (values.length : ℚ)

/-- Embedding of the inline `averageAge` computation of the relay-variant
`GET /run` handler in `src/clinicServer.ts`:
`ages.length ? ages.reduce((a, b) => a + b, 0) / ages.length : null`
(`0` is falsy, so the empty list yields `null`). -/
def averageAgeRelay (ages : List ℚ) : Option ℚ :=
  if ages.length = 0 then none else some (jsSum ages / (ages.length : ℚ))

/-- The oblivious relay's store (`const store: Record<string, StoredItem[]>`),
mapping a clinic label to its most recently uploaded items; `none` models an
absent key.  Initially empty. -/
def emptyStore : String → Option (List (String × Nat)) := fun _ => none

/-- Embedding of the relay's `POST /upload`: `store[clinic] = items`. -/
def upload (store : String → Option (List (String × Nat))) (clinic : String)
    (items : List (String × Nat)) : String → Option (List (String × Nat)) :=
  fun k => if k = clinic then some items else store k

/-- Embedding of the relay's `GET /processed`: reads `store[clinic]` and
`store[clinic === "A" ? "B" : "A"]`; if either is missing it returns `[]`;
otherwise it raises each value of the selected set (`own` → caller's,
else the peer's) to the relay's secret `K` modulo `P`. -/
def getProcessed (store : String → Option (List (String × Nat)))
    (clinic ty : String) (K : Nat) : List (String × Nat) :=
  match store clinic, store (if clinic = "A" then "B" else "A") with
  | some me, some other =>
      (if ty = "own" then me else other).map (fun it => (it.1, modPow it.2 K))
  | _, _ => []

/-- JavaScript `new Map(entries)`: entries inserted in order, later entries
with an equal key overwriting earlier ones. -/
def mkMap (l : List (String × Nat)) : List (String × Nat) :=
  l.foldl (fun m p => mapSet m p.1 p.2) []

/-- The network round trips of the relay-variant `GET /run` handler of
`src/clinicServer.ts`, abstracted as their outcomes: each `await fetch`
(plus body parsing) either succeeds with the parsed value or fails
(rejected promise / parse error), which the `Except` error propagates. -/
structure RelayNet where
  upload : List (String × Nat) → Except String Unit
  peerProcessed : Except String (List (String × Nat))
  ownProcessed : Except String (List (String × Nat))
  peerReexp : List (String × Nat) → Except String (List (String × Nat))

/-- The JSON object returned by the relay-variant `GET /run` on success:
`{intersection, size, averageAge}` with `averageAge : number | null`. -/
structure RelayRunResult where
  intersection : List String
  size : Nat
  averageAge : Option ℚ

/-- What the relay-variant `/run` handler hands to the framework: either the
success object or the structured error object `{ error: String(err) }`
produced by the `catch` branch. -/
inductive RelayReply where
  | result : RelayRunResult → RelayReply
  | errorObject : String → RelayReply

/-- The `try` block of the relay-variant `GET /run` in `src/clinicServer.ts`:
compute local blinded values, upload them, fetch the peer's processed values,
re-exponentiate them, fetch own processed values, send them to the peer for
re-exponentiation, intersect, and aggregate.  A failing round trip
propagates as an `Except.error` (a rejected `await`). -/
def runRelaySteps (data : List (String × ℚ)) (secret : Nat)
    (hash : String → Nat) (net : RelayNet) : Except String RelayRunResult :=
  let mineMap := computeBlinded (data.map Prod.fst) secret hash
  match net.upload mineMap with
  | Except.error e => Except.error e
  | Except.ok _ =>
    match net.peerProcessed with
    | Except.error e => Except.error e
    | Except.ok peerProcessed =>
      let re1Final := reExponentiate (mkMap peerProcessed) secret
      match net.ownProcessed with
      | Except.error e => Except.error e
      | Except.ok ownProcessed =>
        match net.peerReexp ownProcessed with
        | Except.error e => Except.error e
        | Except.ok peerRe =>
          let re2 := mkMap peerRe
          let ids := intersect re1Final re2
          let ages := (data.filter (fun d => ids.contains d.1)).map Prod.snd
          Except.ok
            { intersection := ids
              size := ids.length
              averageAge := averageAgeRelay ages }

/-- The complete relay-variant `GET /run` handler: the `try` block wrapped in
`catch (err) { return { error: String(err) } }`. -/
def runRelay (data : List (String × ℚ)) (secret : Nat) (hash : String → Nat)
    (net : RelayNet) : RelayReply :=
  match runRelaySteps data secret hash net with
  | Except.ok r => RelayReply.result r
  | Except.error e => RelayReply.errorObject e

/-- The success value of the relay-variant run as a function of the two
response bodies that reach the intersection step. -/
def relayResultOf (data : List (String × ℚ)) (secret : Nat)
    (peerProcessed peerRe : List (String × Nat)) : RelayRunResult :=
  let re1Final := reExponentiate (mkMap peerProcessed) secret
  let re2 := mkMap peerRe
  let ids := intersect re1Final re2
  let ages := (data.filter (fun d => ids.contains d.1)).map Prod.snd
  { intersection := ids
    size := ids.length
    averageAge := averageAgeRelay ages }

/-- The network round trips of the two-party `GET /run` handler
(`src/clinicServer.ts` two-party variant and its documented copy),
abstracted as their outcomes. -/
structure TwoPartyNet where
  peerBlinded : Except String (List (String × Nat))
  peerReexp : List (String × Nat) → Except String (List (String × Nat))

/-- The JSON object returned by the two-party `GET /run` on success:
`{intersection, size, averageAge}` with `averageAge` computed by
`average` from `src/stats.ts` (a `number`, possibly `NaN`). -/
structure TwoPartyRunResult where
  intersection : List String
  size : Nat
  averageAge : JSNum

/-- The two-party `GET /run` handler: fetch the peer's blinded set,
re-exponentiate it, blind own ids, send them to the peer's `/reexp`,
intersect, and aggregate with `average`.  There is no `try`/`catch`: a
failing round trip leaves the handler as an uncaught rejection
(`Except.error` at the framework boundary). -/
def runTwoParty (data : List (String × ℚ)) (secret : Nat)
    (hash : String → Nat) (net : TwoPartyNet) :
    Except String TwoPartyRunResult :=
  match net.peerBlinded with
  | Except.error e => Except.error e
  | Except.ok peerBlind =>
    let re1 := reExponentiate (mkMap peerBlind) secret
    let mine := computeBlinded (data.map Prod.fst) secret hash
    match net.peerReexp mine with
    | Except.error e => Except.error e
    | Except.ok peerRe =>
      let re2 := mkMap peerRe
      let ids := intersect re1 re2
      let ages := (data.filter (fun d => ids.contains d.1)).map Prod.snd
      Except.ok
        { intersection := ids
          size := ids.length
          averageAge := average ages }

/-- The success value of the two-party run as a function of the two response
bodies that reach the intersection step. -/
def twoPartyResultOf (data : List (String × ℚ)) (secret : Nat)
    (peerBlind peerRe : List (String × Nat)) : TwoPartyRunResult :=
  let re1 := reExponentiate (mkMap peerBlind) secret
  let re2 := mkMap peerRe
  let ids := intersect re1 re2
  let ages := (data.filter (fun d => ids.contains d.1)).map Prod.snd
  { intersection := ids
    size := ids.length
    averageAge := average ages }

/-- Composing two modular exponentiations multiplies the exponents. -/
theorem modPow_modPow (x e₁ e₂ : Nat) :
    modPow (modPow x e₁) e₂ = x ^ (e₁ * e₂) % P := by
  unfold modPow
  rw [← Nat.pow_mod, ← pow_mul]

/-- Core algebraic fact: blinding with `h * a` then re-exponentiating by `b`
equals blinding with `h * b` then re-exponentiating by `a`. -/
theorem blind_reexp_comm (x h a b : Nat) :
    modPow (modPow x (h * a)) b = modPow (modPow x (h * b)) a := by
  rw [modPow_modPow, modPow_modPow, mul_assoc, mul_assoc, Nat.mul_comm a b]

theorem computeBlinded_singleton (i : String) (s : Nat) (hash : String → Nat) :
    computeBlinded [i] s hash = [(i, modPow G (hash i * s))] := by
  simp [computeBlinded, mapSet]

theorem reExponentiate_singleton (i : String) (v s : Nat) :
    reExponentiate [(i, v)] s = [(i, modPow v s)] := by
  simp [reExponentiate, mapSet]

theorem keys_mapSet_of_mem {α β : Type} [DecidableEq α] {m : List (α × β)}
    {k : α} (v : β) (h : k ∈ m.map Prod.fst) :
    (mapSet m k v).map Prod.fst = m.map Prod.fst := by
  unfold mapSet
  rw [if_pos h, List.map_map]
  apply List.map_congr_left
  intro p _
  by_cases hp : p.1 = k <;> simp [Function.comp, hp]

theorem mapSet_of_not_mem {α β : Type} [DecidableEq α] {m : List (α × β)}
    {k : α} (v : β) (h : k ∉ m.map Prod.fst) :
    mapSet m k v = m ++ [(k, v)] := by
  unfold mapSet
  rw [if_neg h]

theorem mem_keys_mapSet {α β : Type} [DecidableEq α] (m : List (α × β))
    (k : α) (v : β) (x : α) :
    x ∈ (mapSet m k v).map Prod.fst ↔ x ∈ m.map Prod.fst ∨ x = k := by
  by_cases h : k ∈ m.map Prod.fst
  · rw [keys_mapSet_of_mem v h]
    constructor
    · exact Or.inl
    · rintro (hx | rfl)
      · exact hx
      · exact h
  · rw [mapSet_of_not_mem v h]
    simp

theorem nodup_keys_mapSet {α β : Type} [DecidableEq α] {m : List (α × β)}
    (k : α) (v : β) (hm : (m.map Prod.fst).Nodup) :
    ((mapSet m k v).map Prod.fst).Nodup := by
  by_cases h : k ∈ m.map Prod.fst
  · rw [keys_mapSet_of_mem v h]
    exact hm
  · rw [mapSet_of_not_mem v h, List.map_append]
    simp only [List.nodup_append, List.map_cons, List.map_nil]
    refine ⟨hm, List.nodup_singleton k, ?_⟩
    intro x hx
    simp only [List.mem_cons, List.not_mem_nil, or_false]
    rintro rfl
    exact h hx

theorem mem_entries_mapSet {α β : Type} [DecidableEq α] {m : List (α × β)}
    {k : α} {v : β} {q : α × β} (hq : q ∈ mapSet m k v) :
    q ∈ m ∨ q = (k, v) := by
  unfold mapSet at hq
  by_cases h : k ∈ m.map Prod.fst
  · rw [if_pos h, List.mem_map] at hq
    obtain ⟨p, hp, hpq⟩ := hq
    by_cases hpk : p.1 = k
    · rw [if_pos hpk] at hpq
      exact Or.inr hpq.symm
    · rw [if_neg hpk] at hpq
      exact Or.inl (hpq ▸ hp)
  · rw [if_neg h, List.mem_append] at hq
    rcases hq with hq | hq
    · exact Or.inl hq
    · exact Or.inr (List.mem_singleton.mp hq)

theorem alookup_append {α β : Type} [DecidableEq α] (k : α)
    (l₁ l₂ : List (α × β)) :
    alookup k (l₁ ++ l₂) = ((alookup k l₁).orElse (fun _ => alookup k l₂)) := by
  induction l₁ with
  | nil => simp [alookup]
  | cons p ps ih => by_cases hp : p.1 = k <;> simp [alookup, hp, ih]

theorem alookup_eq_some_of_mem_keys {α β : Type} [DecidableEq α]
    {m : List (α × β)} {k : α} (h : k ∈ m.map Prod.fst) :
    ∃ w, alookup k m = some w := by
  induction m with
  | nil => simp at h
  | cons p ps ih =>
    by_cases hp : p.1 = k
    · exact ⟨p.2, by simp [alookup, hp]⟩
    · have : k ∈ ps.map Prod.fst := by
        rcases List.mem_cons.mp h with h' | h'
        · exact absurd h'.symm hp
        · exact h'
      obtain ⟨w, hw⟩ := ih this
      exact ⟨w, by simp [alookup, hp, hw]⟩

theorem alookup_eq_none_of_not_mem_keys {α β : Type} [DecidableEq α]
    {m : List (α × β)} {k : α} (h : k ∉ m.map Prod.fst) :
    alookup k m = none := by
  induction m with
  | nil => simp [alookup]
  | cons p ps ih =>
    simp only [List.map_cons, List.mem_cons, not_or] at h
    have hp : p.1 ≠ k := fun hpk => h.1 hpk.symm
    simp [alookup, hp, ih h.2]

theorem alookup_replace {α β : Type} [DecidableEq α] (m : List (α × β))
    (k : α) (v : β) (k' : α) :
    alookup k' (m.map (fun p => if p.1 = k then (k, v) else p)) =
      if k' = k then (alookup k m).map (fun _ => v) else alookup k' m := by
  induction m with
  | nil => by_cases h : k' = k <;> simp [alookup, h]
  | cons p ps ih =>
    by_cases hp : p.1 = k
    · by_cases hk : k' = k
      · subst hk
        simp [alookup, hp, ih]
      · have hk' : ¬ k = k' := fun h => hk h.symm
        simp [alookup, hp, hk, hk', ih]
    · by_cases hk : k' = k
      · subst hk
        simp [alookup, hp, ih]
      · have hp' : p.1 = k' ↔ p.1 = k' := Iff.rfl
        simp [alookup, hp, hk, ih]

theorem alookup_mapSet {α β : Type} [DecidableEq α] (m : List (α × β))
    (k : α) (v : β) (k' : α) :
    alookup k' (mapSet m k v) = if k' = k then some v else alookup k' m := by
  unfold mapSet
  by_cases h : k ∈ m.map Prod.fst
  · rw [if_pos h, alookup_replace]
    obtain ⟨w, hw⟩ := alookup_eq_some_of_mem_keys h
    rw [hw]
    rfl
  · rw [if_neg h, alookup_append]
    by_cases hk : k' = k
    · subst hk
      rw [alookup_eq_none_of_not_mem_keys h]
      simp [alookup]
    · have hk' : ¬ k = k' := fun h' => hk h'.symm
      cases hm : alookup k' m <;> simp [alookup, hk, hk', hm]

theorem foldl_mapSet_append {γ α β : Type} [DecidableEq α]
    (key : γ → α) (val : γ → β) (l : List γ) (acc : List (α × β))
    (hdisj : ∀ x ∈ l, key x ∉ acc.map Prod.fst) (hnd : (l.map key).Nodup) :
    l.foldl (fun m x => mapSet m (key x) (val x)) acc =
      acc ++ l.map (fun x => (key x, val x)) := by
  induction l generalizing acc with
  | nil => simp
  | cons x xs ih =>
    rw [List.foldl_cons,
      mapSet_of_not_mem (val x) (hdisj x (List.mem_cons_self x xs))]
    simp only [List.map_cons, List.nodup_cons] at hnd
    rw [ih (acc ++ [(key x, val x)]) ?_ hnd.2]
    · simp
    · intro y hy
      rw [List.map_append]
      simp only [List.mem_append, List.map_cons, List.map_nil,
        List.mem_cons, List.not_mem_nil, or_false, not_or]
      refine ⟨hdisj y (List.mem_cons_of_mem x hy), ?_⟩
      rintro h
      exact hnd.1 (h ▸ List.mem_map_of_mem key hy)

theorem mem_keys_foldl_mapSet {γ α β : Type} [DecidableEq α]
    (key : γ → α) (val : γ → β) (l : List γ) (acc : List (α × β)) (x : α) :
    x ∈ (l.foldl (fun m g => mapSet m (key g) (val g)) acc).map Prod.fst ↔
      x ∈ acc.map Prod.fst ∨ x ∈ l.map key := by
  induction l generalizing acc with
  | nil => simp
  | cons g gs ih =>
    rw [List.foldl_cons, ih, mem_keys_mapSet]
    simp only [List.map_cons, List.mem_cons]
    constructor
    · rintro ((h | h) | h)
      · exact Or.inl h
      · exact Or.inr (Or.inl h)
      · exact Or.inr (Or.inr h)
    · rintro (h | h | h)
      · exact Or.inl (Or.inl h)
      · exact Or.inl (Or.inr h)
      · exact Or.inr h

theorem nodup_keys_foldl_mapSet {γ α β : Type} [DecidableEq α]
    (key : γ → α) (val : γ → β) (l : List γ) (acc : List (α × β))
    (hacc : (acc.map Prod.fst).Nodup) :
    ((l.foldl (fun m g => mapSet m (key g) (val g)) acc).map Prod.fst).Nodup := by
  induction l generalizing acc with
  | nil => exact hacc
  | cons g gs ih =>
    rw [List.foldl_cons]
    exact ih _ (nodup_keys_mapSet (key g) (val g) hacc)

theorem mem_entries_foldl_mapSet {γ α β : Type} [DecidableEq α]
    (key : γ → α) (val : γ → β) (l : List γ) (acc : List (α × β))
    {q : α × β}
    (hq : q ∈ l.foldl (fun m g => mapSet m (key g) (val g)) acc) :
    q ∈ acc ∨ ∃ g ∈ l, q = (key g, val g) := by
  induction l generalizing acc with
  | nil => exact Or.inl hq
  | cons g gs ih =>
    rw [List.foldl_cons] at hq
    rcases ih _ hq with h | ⟨g', hg', rfl⟩
    · rcases mem_entries_mapSet h with h' | h'
      · exact Or.inl h'
      · exact Or.inr ⟨g, List.mem_cons_self g gs, h'⟩
    · exact Or.inr ⟨g', List.mem_cons_of_mem g hg', rfl⟩

theorem intersect_foldl_aux (ix : List (Nat × String))
    (b : List (String × Nat)) (init : List String) :
    b.foldl
      (fun result p =>
        match alookup p.2 ix with
        | some id => result ++ [id]
        | none => result)
      init = init ++ b.filterMap (fun p => alookup p.2 ix) := by
  induction b generalizing init with
  | nil => simp
  | cons p ps ih =>
    cases h : alookup p.2 ix <;>
      simp [List.foldl_cons, h, ih, List.filterMap_cons]

theorem intersect_eq_filterMap (a b : List (String × Nat)) :
    intersect a b = b.filterMap (fun p => alookup p.2 (buildIndex a)) := by
  show b.foldl
      (fun result p =>
        match alookup p.2 (buildIndex a) with
        | some id => result ++ [id]
        | none => result)
      [] = _
  exact (intersect_foldl_aux (buildIndex a) b []).trans (List.nil_append _)

theorem alookup_buildIndex (a : List (String × Nat)) (v : Nat) :
    alookup v (buildIndex a) =
      (a.reverse.find? (fun p => decide (p.2 = v))).map Prod.fst := by
  induction a using List.reverseRecOn with
  | nil => simp [buildIndex, alookup]
  | append_singleton l p ih =>
    unfold buildIndex
    rw [List.foldl_append, List.foldl_cons, List.foldl_nil]
    rw [show l.foldl (fun ix q => mapSet ix q.2 q.1) [] = buildIndex l from rfl]
    rw [alookup_mapSet, List.reverse_append]
    simp only [List.reverse_cons, List.reverse_nil, List.nil_append,
      List.singleton_append, List.find?_cons]
    by_cases hv : v = p.2
    · rw [if_pos hv]
      have : (decide (p.2 = v)) = true := by simp [hv]
      rw [this]
      rfl
    · rw [if_neg hv]
      have : (decide (p.2 = v)) = false := by
        simp only [decide_eq_false_iff_not]
        exact fun h => hv h.symm
      rw [this, ih]

/-- C1: Commutativity law: for every identifier string `i` and every pair of
secrets `a, b`, re-exponentiating by `b` the blinded value computed from `i`
with secret `a` yields the same value as re-exponentiating by `a` the blinded
value computed from `i` with secret `b`: both maps assign `i` the same
exponentiated value. -/
theorem commutativity_law (hash : String → Nat) (i : String) (a b : Nat) :
    reExponentiate (computeBlinded [i] a hash) b =
      reExponentiate (computeBlinded [i] b hash) a := by
  rw [computeBlinded_singleton, computeBlinded_singleton,
    reExponentiate_singleton, reExponentiate_singleton,
    blind_reexp_comm G (hash i) a b]

theorem alookup_mem {α β : Type} [DecidableEq α] {m : List (α × β)}
    {k : α} {x : β} (h : alookup k m = some x) : (k, x) ∈ m := by
  induction m with
  | nil => simp [alookup] at h
  | cons p ps ih =>
    by_cases hp : p.1 = k
    · simp only [alookup, if_pos hp] at h
      obtain rfl := Option.some_injective _ h
      have hkp : (k, p.2) = p := by
        rw [← hp]
      rw [hkp]
      exact List.mem_cons_self p ps
    · simp only [alookup, if_neg hp] at h
      exact List.mem_cons_of_mem p (ih h)

theorem alookup_map_graph {α β : Type} [DecidableEq β] (w : α → β)
    (S : List α) (hinj : ∀ i ∈ S, ∀ j ∈ S, w i = w j → i = j)
    {i : α} (hi : i ∈ S) :
    alookup (w i) (S.map (fun j => (w j, j))) = some i := by
  induction S with
  | nil => simp at hi
  | cons j js ih =>
    by_cases hj : w j = w i
    · have : j = i :=
        hinj j (List.mem_cons_self j js) i hi hj
      simp [alookup, hj, this]
    · have hij : i ∈ js := by
        rcases List.mem_cons.mp hi with rfl | h
        · exact absurd rfl hj
        · exact h
      simp only [List.map_cons, alookup, if_neg hj]
      exact ih
        (fun x hx y hy => hinj x (List.mem_cons_of_mem j hx)
          y (List.mem_cons_of_mem j hy))
        hij

theorem filterMap_eq_self {α : Type} {f : α → Option α} {S : List α}
    (h : ∀ i ∈ S, f i = some i) : S.filterMap f = S := by
  induction S with
  | nil => rfl
  | cons j js ih =>
    rw [List.filterMap_cons, h j (List.mem_cons_self j js),
      ih (fun i hi => h i (List.mem_cons_of_mem j hi))]

theorem computeBlinded_eq_map (S : List String) (s : Nat)
    (hash : String → Nat) (hS : S.Nodup) :
    computeBlinded S s hash =
      S.map (fun i => (i, modPow G (hash i * s))) := by
  unfold computeBlinded
  rw [foldl_mapSet_append (fun i => i) (fun i => modPow G (hash i * s)) S []
    (by simp) (by simpa using hS)]
  simp

theorem reExponentiate_eq_map (m : List (String × Nat)) (s : Nat)
    (hm : (m.map Prod.fst).Nodup) :
    reExponentiate m s = m.map (fun p => (p.1, modPow p.2 s)) := by
  unfold reExponentiate
  rw [foldl_mapSet_append Prod.fst (fun p => modPow p.2 s) m []
    (by simp) hm]
  simp

theorem buildIndex_eq_map (a : List (String × Nat))
    (ha : (a.map Prod.snd).Nodup) :
    buildIndex a = a.map (fun p => (p.2, p.1)) := by
  unfold buildIndex
  rw [foldl_mapSet_append Prod.snd Prod.fst a [] (by simp) ha]
  simp

/-- C2: Exact-overlap round trip: if both parties hold exactly the distinct
identifiers of `S`, then `intersect` applied to the two fully re-exponentiated
maps returns exactly the identifiers of `S` (no false positive, no false
negative), under the claim's precondition that the resulting group elements
are pairwise distinct on `S`. -/
theorem exact_overlap_roundtrip (S : List String) (hash : String → Nat)
    (a b : Nat) (hS : S.Nodup)
    (hinj : ∀ i ∈ S, ∀ j ∈ S,
      modPow (modPow G (hash i * a)) b = modPow (modPow G (hash j * a)) b →
        i = j) :
    intersect (reExponentiate (computeBlinded S a hash) b)
      (reExponentiate (computeBlinded S b hash) a) = S := by
  set w : String → Nat := fun i => modPow (modPow G (hash i * a)) b with hw
  have hA : reExponentiate (computeBlinded S a hash) b =
      S.map (fun i => (i, w i)) := by
    rw [computeBlinded_eq_map S a hash hS,
      reExponentiate_eq_map _ b
        (by simpa [List.map_map, Function.comp_def] using hS),
      List.map_map]
    rfl
  have hB : reExponentiate (computeBlinded S b hash) a =
      S.map (fun i => (i, w i)) := by
    rw [computeBlinded_eq_map S b hash hS,
      reExponentiate_eq_map _ a
        (by simpa [List.map_map, Function.comp_def] using hS),
      List.map_map]
    apply List.map_congr_left
    intro i _
    simp only [Function.comp]
    rw [hw, blind_reexp_comm G (hash i) b a]
  rw [hA, hB, intersect_eq_filterMap, List.filterMap_map,
    buildIndex_eq_map _ (by
      rw [List.map_map]
      exact List.Nodup.map_on
        (by
          intro x hx y hy hxy
          exact hinj x hx y hy hxy)
        hS),
    List.map_map]
  apply filterMap_eq_self
  intro i hi
  simp only [Function.comp]
  exact alookup_map_graph w S hinj hi

/-- C2 witness: a concrete two-element identifier set with secrets `1, 1`
and a hash distinguishing the two identifiers; the round trip returns the
set exactly. -/
theorem exact_overlap_roundtrip_witness :
    (["x", "y"] : List String).Nodup ∧
      intersect
        (reExponentiate
          (computeBlinded ["x", "y"] 1
            (fun s => if s = "x" then 1 else 2)) 1)
        (reExponentiate
          (computeBlinded ["x", "y"] 1
            (fun s => if s = "x" then 1 else 2)) 1) = ["x", "y"] :=
  ⟨by decide,
    exact_overlap_roundtrip ["x", "y"] (fun s => if s = "x" then 1 else 2)
      1 1 (by decide) (by decide)⟩

/-- C3 counterexample: with `a = [(x,5), (y,5)]` and `b = [(z,5)]`, the
identifier `x` of `a` has a value equal to an entry of `b`, yet `x` is not
returned: the claimed "returned exactly when its value equals the value of
some entry of b" equivalence fails when two identifiers of `a` share a
value, because the later `Map.set` overwrites the index entry. -/
theorem intersect_membership_counterexample :
    ("x", (5 : Nat)) ∈ [("x", (5 : Nat)), ("y", 5)] ∧
      (5 : Nat) ∈ ([("z", (5 : Nat))].map Prod.snd) ∧
      "x" ∉ intersect [("x", (5 : Nat)), ("y", 5)] [("z", 5)] := by
  refine ⟨by decide, by decide, ?_⟩
  decide

theorem alookup_swap_of_nodup {α β : Type} [DecidableEq β]
    (a : List (α × β)) :
    (a.map Prod.snd).Nodup → ∀ (id : α) (v : β), (id, v) ∈ a →
      alookup v (a.map (fun p => (p.2, p.1))) = some id := by
  induction a with
  | nil =>
    intro _ id v h
    simp at h
  | cons p ps ih =>
    intro hnd id v h
    simp only [List.map_cons, List.nodup_cons] at hnd
    by_cases hp : p.2 = v
    · rcases List.mem_cons.mp h with rfl | hmem
      · simp [alookup]
      · exact absurd
          (by rw [hp]; exact List.mem_map_of_mem Prod.snd hmem) hnd.1
    · rcases List.mem_cons.mp h with rfl | hmem
      · exact absurd rfl hp
      · simp only [List.map_cons, alookup, if_neg hp]
        exact ih hnd.2 id v hmem

/-- C3 amended: every identifier returned by `intersect a b` is a key of the
first argument `a` (unconditionally); and provided the values of `a` are
pairwise distinct, an identifier of `a` is returned exactly when its value
equals the value of some entry of `b` under exact integer equality. -/
theorem intersect_membership (a b : List (String × Nat)) :
    (∀ id ∈ intersect a b, ∃ v, (id, v) ∈ a) ∧
      ((a.map Prod.snd).Nodup →
        ∀ id, (id ∈ intersect a b ↔
          ∃ v, (id, v) ∈ a ∧ v ∈ b.map Prod.snd)) := by
  constructor
  · intro id hid
    rw [intersect_eq_filterMap, List.mem_filterMap] at hid
    obtain ⟨p, _, hp⟩ := hid
    rcases mem_entries_foldl_mapSet Prod.snd Prod.fst a []
        (alookup_mem hp) with h | ⟨g, hg, hgq⟩
    · simp at h
    · have h2 : id = g.1 := (Prod.ext_iff.mp hgq).2
      refine ⟨g.2, ?_⟩
      have hgi : (id, g.2) = g := by
        rw [h2]
      exact hgi ▸ hg
  · intro hnd id
    rw [intersect_eq_filterMap, List.mem_filterMap,
      buildIndex_eq_map a hnd]
    constructor
    · rintro ⟨p, hpb, hp⟩
      have hmem := alookup_mem hp
      rw [List.mem_map] at hmem
      obtain ⟨g, hg, hgq⟩ := hmem
      have hk : g.2 = p.2 := (Prod.ext_iff.mp hgq).1
      have hv : g.1 = id := (Prod.ext_iff.mp hgq).2
      refine ⟨p.2, ?_, List.mem_map_of_mem Prod.snd hpb⟩
      have hgi : (id, p.2) = g := by
        rw [← hv, ← hk]
      exact hgi ▸ hg
    · rintro ⟨v, hva, hvb⟩
      rw [List.mem_map] at hvb
      obtain ⟨q, hqb, hqv⟩ := hvb
      refine ⟨q, hqb, ?_⟩
      rw [← hqv] at hva
      exact alookup_swap_of_nodup a hnd id q.2 hva

/-- C3 witness: concrete maps with pairwise-distinct values on the indexed
side; the membership equivalence holds at identifier `"y"`. -/
theorem intersect_membership_witness :
    (([("x", (3 : Nat)), ("y", 4)].map Prod.snd).Nodup) ∧
      ("y" ∈ intersect [("x", (3 : Nat)), ("y", 4)] [("z", 4)] ↔
        ∃ v, ("y", v) ∈ [("x", (3 : Nat)), ("y", 4)] ∧
          v ∈ [("z", (4 : Nat))].map Prod.snd) :=
  ⟨by decide,
    (intersect_membership [("x", 3), ("y", 4)] [("z", 4)]).2 (by decide) "y"⟩

/-- C4 counterexample: in `a = [(p,7), (q,7)]` two distinct identifiers map
to the value `7`, which also occurs in `b`; the identifier reported is `q`,
the one whose mapping was inserted last, not first as the claim states:
`Map.set` overwrites the earlier index entry. -/
theorem intersect_first_wins_counterexample :
    ("p", (7 : Nat)) ∈ [("p", (7 : Nat)), ("q", 7)] ∧
      ("q", (7 : Nat)) ∈ [("p", (7 : Nat)), ("q", 7)] ∧
      (7 : Nat) ∈ ([("r", (7 : Nat))].map Prod.snd) ∧
      intersect [("p", (7 : Nat)), ("q", 7)] [("r", 7)] = ["q"] ∧
      "p" ∉ intersect [("p", (7 : Nat)), ("q", 7)] [("r", 7)] := by
  decide

/-- C4 amended: the collision tie-break is deterministic, and the identifier
reported for a value is the one of the last entry of `a` carrying that value
(the last-inserted mapping wins): `intersect a b` equals, entry by entry of
`b`, the first match of the value in the reversal of `a`. -/
theorem intersect_last_inserted_wins (a b : List (String × Nat)) :
    intersect a b =
      b.filterMap (fun q =>
        (a.reverse.find? (fun p => decide (p.2 = q.2))).map Prod.fst) := by
  rw [intersect_eq_filterMap]
  exact congrArg (fun f => b.filterMap f)
    (funext fun q => alookup_buildIndex a q.2)

/-- C10: key-set preservation: `computeBlinded` returns a map whose keys are
pairwise distinct and are exactly the distinct strings occurring in `ids`;
`reExponentiate` returns a map with exactly the key list of its input map
(keys of a JavaScript `Map` are pairwise distinct). -/
theorem key_set_preservation (ids : List String) (s : Nat)
    (hash : String → Nat) (m : List (String × Nat))
    (hm : (m.map Prod.fst).Nodup) :
    ((computeBlinded ids s hash).map Prod.fst).Nodup ∧
      (∀ k, k ∈ (computeBlinded ids s hash).map Prod.fst ↔ k ∈ ids) ∧
      (reExponentiate m s).map Prod.fst = m.map Prod.fst := by
  refine ⟨?_, ?_, ?_⟩
  · unfold computeBlinded
    exact nodup_keys_foldl_mapSet (fun i => i)
      (fun i => modPow G (hash i * s)) ids [] (by simp)
  · intro k
    unfold computeBlinded
    rw [mem_keys_foldl_mapSet (fun i => i)
      (fun i => modPow G (hash i * s)) ids [] k]
    simp
  · rw [reExponentiate_eq_map m s hm, List.map_map]
    rfl

/-- C10 witness: a concrete id list with a repeated identifier and a concrete
two-entry map. -/
theorem key_set_preservation_witness :
    (([("u", (1 : Nat)), ("v", 2)].map Prod.fst).Nodup) ∧
      ((computeBlinded ["a", "b", "a"] 3 String.length).map Prod.fst).Nodup ∧
      ("a" ∈ (computeBlinded ["a", "b", "a"] 3 String.length).map Prod.fst ↔
        "a" ∈ ["a", "b", "a"]) ∧
      (reExponentiate [("u", (1 : Nat)), ("v", 2)] 3).map Prod.fst =
        [("u", (1 : Nat)), ("v", 2)].map Prod.fst :=
  ⟨by decide,
    (key_set_preservation ["a", "b", "a"] 3 String.length
      [("u", 1), ("v", 2)] (by decide)).1,
    (key_set_preservation ["a", "b", "a"] 3 String.length
      [("u", 1), ("v", 2)] (by decide)).2.1 "a",
    (key_set_preservation ["a", "b", "a"] 3 String.length
      [("u", 1), ("v", 2)] (by decide)).2.2⟩

/-- C5 counterexample: `average` from `src/stats.ts` on the empty sequence
evaluates `0 / 0` and returns the numeric error value `NaN`, not an explicit
empty-result marker. -/
theorem average_empty_counterexample : average [] = JSNum.nan := by
  simp [average, jsSum, jsDiv]

/-- C5 amended: the stats-module `average` returns `NaN` (a numeric error
value, not an explicit empty marker) on the empty sequence, while the
relay-variant `/run` handler's inline aggregate separately guards the empty
case and returns the explicit marker `null`; on every non-empty sequence
both return the arithmetic mean. -/
theorem average_policy (values : List ℚ) (hne : values ≠ []) :
    average [] = JSNum.nan ∧
      averageAgeRelay [] = none ∧
      average values = JSNum.val (jsSum values / (values.length : ℚ)) ∧
      averageAgeRelay values = some (jsSum values / (values.length : ℚ)) := by
  have hlen : values.length ≠ 0 := fun h => hne (List.length_eq_zero.mp h)
  have hlenq : (values.length : ℚ) ≠ 0 := Nat.cast_ne_zero.mpr hlen
  refine ⟨by simp [average, jsSum, jsDiv], rfl, ?_, ?_⟩
  · rw [average, jsDiv, if_neg hlenq]
  · rw [averageAgeRelay, if_neg hlen]

/-- C5 witness: the two-element sequence `[3, 5]`. -/
theorem average_policy_witness :
    ([(3 : ℚ), 5] ≠ []) ∧
      (average [] = JSNum.nan ∧
        averageAgeRelay [] = none ∧
        average [(3 : ℚ), 5] =
          JSNum.val (jsSum [(3 : ℚ), 5] / (([(3 : ℚ), 5].length : Nat) : ℚ)) ∧
        averageAgeRelay [(3 : ℚ), 5] =
          some (jsSum [(3 : ℚ), 5] / (([(3 : ℚ), 5].length : Nat) : ℚ))) :=
  ⟨by simp, average_policy [(3 : ℚ), 5] (by simp)⟩

/-- C6: Relay soft-fail: while either participant's set is missing from the
store, every `GET /processed` query returns the empty list (no error); once
both sets are stored, the reply pairs each item id of the selected set (own
or peer) with the stored value raised to the relay's secret `K` modulo `P`. -/
theorem relay_soft_fail (itemsA itemsB : List (String × Nat)) (K : Nat)
    (clinic ty : String) :
    getProcessed emptyStore clinic ty K = [] ∧
      getProcessed (upload emptyStore "A" itemsA) clinic ty K = [] ∧
      getProcessed (upload emptyStore "B" itemsB) clinic ty K = [] ∧
      getProcessed (upload (upload emptyStore "A" itemsA) "B" itemsB)
        "A" "own" K = itemsA.map (fun it => (it.1, modPow it.2 K)) ∧
      getProcessed (upload (upload emptyStore "A" itemsA) "B" itemsB)
        "A" "peer" K = itemsB.map (fun it => (it.1, modPow it.2 K)) ∧
      getProcessed (upload (upload emptyStore "A" itemsA) "B" itemsB)
        "B" "own" K = itemsB.map (fun it => (it.1, modPow it.2 K)) ∧
      getProcessed (upload (upload emptyStore "A" itemsA) "B" itemsB)
        "B" "peer" K = itemsA.map (fun it => (it.1, modPow it.2 K)) := by
  have hBA : ("B" : String) ≠ "A" := by decide
  have hAB : ("A" : String) ≠ "B" := by decide
  have hPO : ("peer" : String) ≠ "own" := by decide
  refine ⟨?_, ?_, ?_, ?_, ?_, ?_, ?_⟩
  · simp [getProcessed, emptyStore]
  · by_cases hc : clinic = "A"
    · simp [getProcessed, upload, emptyStore, hc, hBA]
    · simp [getProcessed, upload, emptyStore, hc]
  · by_cases hc : clinic = "A"
    · simp [getProcessed, upload, emptyStore, hc, hAB]
    · by_cases hc2 : clinic = "B"
      · simp [getProcessed, upload, emptyStore, hc, hc2, hAB, hBA]
      · simp [getProcessed, upload, emptyStore, hc, hc2]
  · simp [getProcessed, upload, emptyStore, hAB, hBA]
  · simp [getProcessed, upload, emptyStore, hAB, hBA, hPO]
  · simp [getProcessed, upload, emptyStore, hAB, hBA]
  · simp [getProcessed, upload, emptyStore, hAB, hBA, hPO]

/-- C7 counterexample: the two-party `/run` handler has no `try`/`catch`:
when the first round trip fails, the failure reaches the framework as an
uncaught thrown fault (`Except.error`), not as a structured error object. -/
theorem run_uncaught_fault_counterexample :
    runTwoParty [] 1 (fun _ => 0)
      { peerBlinded := Except.error "fetch failed: ECONNREFUSED"
        peerReexp := fun _ => Except.ok [] } =
      Except.error "fetch failed: ECONNREFUSED" := rfl

/-- C7 amended: the relay-variant run wraps every step in `try`/`catch` and
returns either the structured error object (carrying the stringified,
human-readable reason) or the complete intersection result computed from
fully received data; the two-party run variant instead surfaces any step
failure as an uncaught thrown fault, and likewise never returns a partially
computed intersection. -/
theorem run_error_atomicity (data : List (String × ℚ)) (secret : Nat)
    (hash : String → Nat) (net : RelayNet) (net2 : TwoPartyNet) :
    ((∃ e, runRelay data secret hash net = RelayReply.errorObject e) ∨
      (∃ pb own pr,
        net.upload (computeBlinded (data.map Prod.fst) secret hash) =
          Except.ok () ∧
        net.peerProcessed = Except.ok pb ∧
        net.ownProcessed = Except.ok own ∧
        net.peerReexp own = Except.ok pr ∧
        runRelay data secret hash net =
          RelayReply.result (relayResultOf data secret pb pr))) ∧
      ((∃ e, runTwoParty data secret hash net2 = Except.error e) ∨
        (∃ pb pr,
          net2.peerBlinded = Except.ok pb ∧
          net2.peerReexp (computeBlinded (data.map Prod.fst) secret hash) =
            Except.ok pr ∧
          runTwoParty data secret hash net2 =
            Except.ok (twoPartyResultOf data secret pb pr))) := by
  constructor
  · cases hu : net.upload (computeBlinded (data.map Prod.fst) secret hash) with
    | error e =>
      exact Or.inl ⟨e, by simp [runRelay, runRelaySteps, hu]⟩
    | ok u =>
      cases u
      cases hp : net.peerProcessed with
      | error e =>
        exact Or.inl ⟨e, by simp [runRelay, runRelaySteps, hu, hp]⟩
      | ok pb =>
        cases ho : net.ownProcessed with
        | error e =>
          exact Or.inl ⟨e, by simp [runRelay, runRelaySteps, hu, hp, ho]⟩
        | ok own =>
          cases hr : net.peerReexp own with
          | error e =>
            exact Or.inl ⟨e, by
              simp [runRelay, runRelaySteps, hu, hp, ho, hr]⟩
          | ok pr =>
            exact Or.inr ⟨pb, own, pr, rfl, rfl, rfl, hr, by
              simp [runRelay, runRelaySteps, relayResultOf, hu, hp, ho, hr]⟩
  · cases hb : net2.peerBlinded with
    | error e =>
      exact Or.inl ⟨e, by simp [runTwoParty, hb]⟩
    | ok pb =>
      cases hr : net2.peerReexp (computeBlinded (data.map Prod.fst) secret hash) with
      | error e =>
        exact Or.inl ⟨e, by simp [runTwoParty, hb, hr]⟩
      | ok pr =>
        exact Or.inr ⟨pb, pr, rfl, rfl, by
          simp [runTwoParty, twoPartyResultOf, hb, hr]⟩

/-- C8 counterexample: the mod-and-shift secret generator is not a uniform
draw from `[2, P − 2]`: the value `P − 2` of that interval is never
returned, because every 256-bit byte draw yields a result of at most
`2^256 + 1`, far below `P − 2`. -/
theorem randomSecret_not_uniform_counterexample :
    (∀ r, r < 2 ^ 256 → randomSecret r ≠ P - 2) ∧ randomSecret 0 = 2 := by
  constructor
  · intro r hr
    have h2 : 2 ^ 256 + 2 ≤ P - 2 := by decide
    have hmod : r % (P - 2) = r :=
      Nat.mod_eq_of_lt (lt_of_lt_of_le hr (by omega))
    unfold randomSecret
    rw [hmod]
    exact Nat.ne_of_lt (lt_of_lt_of_le (by omega) h2)
  · decide

/-- C8 amended: every value returned by the mod-and-shift secret generator
equals `r + 2` for the 256-bit random draw `r` (so the draw is injective and
uniform on its actual range `[2, 2^256 + 1]`), lies inside `[2, P − 2]`, but
never reaches beyond `2^256 + 1`, so the distribution is not uniform over
`[2, P − 2]`; cryptographic quality of the byte source is external. -/
theorem randomSecret_range (r : Nat) (hr : r < 2 ^ 256) :
    randomSecret r = r + 2 ∧ 2 ≤ randomSecret r ∧
      randomSecret r ≤ 2 ^ 256 + 1 ∧ randomSecret r ≤ P - 2 := by
  have h2 : 2 ^ 256 + 2 ≤ P - 2 := by decide
  have hmod : r % (P - 2) = r :=
    Nat.mod_eq_of_lt (lt_of_lt_of_le hr (by omega))
  unfold randomSecret
  rw [hmod]
  omega

/-- C8 witness: the concrete byte draw `41`. -/
theorem randomSecret_range_witness :
    (41 : Nat) < 2 ^ 256 ∧
      (randomSecret 41 = 41 + 2 ∧ 2 ≤ randomSecret 41 ∧
        randomSecret 41 ≤ 2 ^ 256 + 1 ∧ randomSecret 41 ≤ P - 2) :=
  ⟨by decide, randomSecret_range 41 (by decide)⟩

/-- C9 counterexample: the modulus `P` is not a 2048-bit number as the claim
describes it: it is below `2^2047`. -/
theorem modulus_not_2048_bit_counterexample : ¬ 2 ^ 2047 ≤ P := by
  norm_num [P]

/-- C9 amended: for every 256-bit SHA-256 digest `d`, `hashToBigInt` leaves
`d` unchanged by the reduction modulo `P − 1` and returns a value in
`[0, 2^256)`, a strict subrange of the exponent domain `[0, P − 1)` — for
the modulus `P`, which is 768-bit, not 2048-bit; the function is a
deterministic map of the digest. -/
theorem hashToBigInt_range (d : Nat) (hd : d < 2 ^ 256) :
    hashToBigInt d = d ∧ hashToBigInt d < 2 ^ 256 ∧
      2 ^ 256 < P - 1 ∧ 2 ^ 767 ≤ P ∧ P < 2 ^ 768 := by
  have h1 : 2 ^ 256 < P - 1 := by decide
  have heq : hashToBigInt d = d := by
    unfold hashToBigInt
    exact Nat.mod_eq_of_lt (lt_trans hd h1)
  exact ⟨heq, by rw [heq]; exact hd, h1, by norm_num [P], by norm_num [P]⟩

/-- C9 witness: the concrete digest `123456789`. -/
theorem hashToBigInt_range_witness :
    (123456789 : Nat) < 2 ^ 256 ∧
      (hashToBigInt 123456789 = 123456789 ∧
        hashToBigInt 123456789 < 2 ^ 256 ∧
        2 ^ 256 < P - 1 ∧ 2 ^ 767 ≤ P ∧ P < 2 ^ 768) :=
  ⟨by decide, hashToBigInt_range 123456789 (by decide)⟩

end Psi
